import Mathlib

/-!
# Verification of the big_O measurement-to-model-selection pipeline

Shallow embedding of `src/big_o/big_o.py`:
* `measure_execution_time` — the timing harness (numpy `linspace` sampling,
  `timeit.Timer.repeat` timing, `np.min` aggregation),
* `infer_big_o_class` — the model selector with the 1e-6 simplicity bias,
* `big_o` — the orchestrator composing the two.

Modelling conventions:
* Python floats are modelled as exact rationals (`ℚ`); the constant `1e-6`
  becomes `1/1000000`.
* Wall-clock timing of the callable is nondeterministic in reality; it is
  modelled by an oracle `execTime : ℕ → D → ℕ → ℕ → ℚ` giving the duration of
  the k-th execution of the callable in timing round j at measurement index i
  on data d.  `timeit.Timer.repeat(n_timings, n_repeats)` then returns, per
  round, the total of `n_repeats` consecutive executions on the fixed data held
  by the wrapper.
* The class `ComplexityClass` lives in `big_o/complexities.py`, which is not
  part of the sources under review; only its interface (a deterministic
  least-squares `fit` producing coefficients and a residual) is used here, so
  it is carried as opaque data: a function from observations to
  (coefficients, residual).
* A Python `dict` is modelled as an insertion-ordered association list;
  assignment updates an existing key in place and otherwise appends.
* Fallible numpy operations (`linspace` with a negative sample count, `min`
  of an empty array) are modelled with `Except String`.
-/

namespace BigO

/-- Fixed simplicity-bias constant `1e-6` of `infer_big_o_class`
(`big_o.py` line 107), as an exact rational. -/
def epsBias : ℚ := 1 / 1000000

/-- Truncation toward zero, the behaviour of numpy `astype('int64')`
on finite values (`big_o.py` line 60). -/
def truncInt (q : ℚ) : ℤ := if 0 ≤ q then ⌊q⌋ else ⌈q⌉

/-- The sample values of `np.linspace(start, stop, num)` for `num ≥ 0`:
`num` evenly spaced samples from `start` to `stop`, both endpoints included
(numpy assigns the final sample the value `stop` exactly). -/
def linspaceList (start stop : ℚ) (num : ℤ) : List ℚ :=
  if num = 1 then [start]
  else (List.range num.toNat).map (fun (i : ℕ) =>
    if (i : ℤ) = num - 1 then stop
    else start + (i : ℚ) * (stop - start) / ((num : ℚ) - 1))

/-- `np.linspace(start, stop, num)` over exact rationals.  A negative `num`
raises a `ValueError`; `num = 0` yields the empty array. -/
def linspace (start stop : ℚ) (num : ℤ) : Except String (List ℚ) :=
  if num < 0 then
    .error "ValueError: Number of samples must be non-negative"
  else
    .ok (linspaceList start stop num)

/-- `np.min` on a list: raises on the empty array, otherwise the minimum. -/
def npMin (l : List ℚ) : Except String ℚ :=
  match l with
  | [] => .error "ValueError: zero-size array to reduction operation minimum"
  | x :: xs => .ok (xs.foldl min x)

/-- Total time of one timing round at measurement index `i` on data `d`:
`timeit` executes the wrapped callable `n_repeats` times and returns the
cumulative duration (`big_o.py` line 64, `timer.repeat(n_timings, n_repeats)`;
round index `j`). -/
def roundTotal {D : Type} (execTime : ℕ → D → ℕ → ℕ → ℚ)
    (i : ℕ) (d : D) (n_repeats : ℕ) (j : ℕ) : ℚ :=
  ((List.range n_repeats).map (execTime i d j)).sum

/-- The list of per-round totals returned by
`timer.repeat(n_timings, n_repeats)` at measurement index `i` on data `d`. -/
def roundTotals {D : Type} (execTime : ℕ → D → ℕ → ℕ → ℚ)
    (i : ℕ) (d : D) (n_repeats n_timings : ℕ) : List ℚ :=
  (List.range n_timings).map (roundTotal execTime i d n_repeats)

/-- `measure_execution_time` (`big_o.py` lines 60-67): sizes are
`np.linspace(min_n, max_n, n_measures).astype('int64')`; for each size the
wrapper generates the input once (`func_wrapper.__init__`), the timer runs
`n_timings` rounds of `n_repeats` executions each, and the minimum round total
is recorded. -/
def measure_execution_time {D : Type} (execTime : ℕ → D → ℕ → ℕ → ℚ)
    (data_generator : ℤ → D) (min_n max_n n_measures : ℤ)
    (n_repeats n_timings : ℕ) : Except String (List ℤ × List ℚ) := do
  let nsq ← linspace (min_n : ℚ) (max_n : ℚ) n_measures
  let ns := nsq.map truncInt
  let times ← ns.enum.mapM (fun p =>
    npMin (roundTotals execTime p.1 (data_generator p.2) n_repeats n_timings))
  return (ns, times)

/-- A candidate complexity class: its deterministic least-squares fit, mapping
the observations to the fitted coefficients and the residual.  The concrete
classes live in `big_o/complexities.py` (outside the sources under review);
the pipeline uses only this interface. -/
structure ComplexityClass where
  fitFull : List ℤ → List ℚ → (List ℚ × ℚ)

/-- A fitted model instance: `infer_big_o_class` constructs one fresh instance
per candidate (`inst = class_()`), so the loop index identifies the object; the
fitted coefficients are the state `fit` stores on it. -/
structure FittedInst where
  idx : ℕ
  coeffs : List ℚ
deriving DecidableEq, Repr

/-- Key of the fitted dictionary: normally a model instance; the orchestrator
additionally uses the string keys `'measures'` and `'times'`. -/
inductive FitKey where
  | inst : FittedInst → FitKey
  | str : String → FitKey
deriving DecidableEq, Repr

/-- Value of the fitted dictionary: a residual for model keys, the raw sizes
or raw durations for the two string keys. -/
inductive FitVal where
  | residual : ℚ → FitVal
  | sizes : List ℤ → FitVal
  | times : List ℚ → FitVal
deriving DecidableEq, Repr

/-- Python dictionary assignment `d[k] = v` on an insertion-ordered
association list: update the existing entry in place, else append. -/
def dictInsert (d : List (FitKey × FitVal)) (k : FitKey) (v : FitVal) :
    List (FitKey × FitVal) :=
  if d.any (fun p => p.1 = k) then
    d.map (fun p => if p.1 = k then (k, v) else p)
  else d ++ [(k, v)]

/-- The loop of `infer_big_o_class` (`big_o.py` lines 100-110): running best
(instance and its residual; `none` is the initial `best_class = None`,
`best_residuals = np.inf` state — any finite residual beats it), fitted
dictionary, remaining candidates.  `i` is the loop index of the next
candidate. -/
def inferAux (ns : List ℤ) (time : List ℚ) :
    ℕ → Option (FittedInst × ℚ) → List (FitKey × FitVal) →
    List ComplexityClass → Option (FittedInst × ℚ) × List (FitKey × FitVal)
  | _, best, fitted, [] => (best, fitted)
  | i, best, fitted, c :: rest =>
    let fr := c.fitFull ns time
    let inst : FittedInst := ⟨i, fr.1⟩
    let fitted' := dictInsert fitted (.inst inst) (.residual fr.2)
    let best' :=
      match best with
      | none => some (inst, fr.2)
      | some (b, br) => if fr.2 < br - epsBias then some (inst, fr.2)
                        else some (b, br)
    inferAux ns time (i + 1) best' fitted' rest

/-- `infer_big_o_class` (`big_o.py` lines 97-111): fit every candidate,
record every residual, track the running best under the `epsBias`
preference, return the best instance and the fitted dictionary. -/
def infer_big_o_class (ns : List ℤ) (time : List ℚ)
    (classes : List ComplexityClass) :
    Option FittedInst × List (FitKey × FitVal) :=
  let r := inferAux ns time 0 none [] classes
  (r.1.map Prod.fst, r.2)

/-- `big_o` (`big_o.py` lines 165-174): measure, infer, and when
`return_raw_data` is set add the `'measures'` and `'times'` entries. -/
def big_o {D : Type} (execTime : ℕ → D → ℕ → ℕ → ℚ)
    (data_generator : ℤ → D) (min_n max_n n_measures : ℤ)
    (n_repeats n_timings : ℕ) (classes : List ComplexityClass)
    (return_raw_data : Bool) :
    Except String (Option FittedInst × List (FitKey × FitVal)) := do
  let m ← measure_execution_time execTime data_generator
            min_n max_n n_measures n_repeats n_timings
  let r := infer_big_o_class m.1 m.2 classes
  let fitted :=
    if return_raw_data then
      dictInsert (dictInsert r.2 (.str "measures") (.sizes m.1))
        (.str "times") (.times m.2)
    else r.2
  return (r.1, fitted)

/-- The minimum of a nonempty list, as `np.min` computes it
(`0` on the empty list, which `np.min` rejects). -/
def listMin1 : List ℚ → ℚ
  | [] => 0
  | x :: xs => xs.foldl min x

/-- The dictionary entries `infer_big_o_class` accumulates, one per candidate
in order: the fresh instance of loop index `i` mapped to its residual. -/
def fitEntries (ns : List ℤ) (time : List ℚ) :
    ℕ → List ComplexityClass → List (FitKey × FitVal)
  | _, [] => []
  | i, c :: rest =>
    (FitKey.inst ⟨i, (c.fitFull ns time).1⟩,
      FitVal.residual (c.fitFull ns time).2) :: fitEntries ns time (i + 1) rest

/-- Modelled from the spec, §4.4: the orchestrator as the spec words it —
invoke the Timing Harness, then the Model Selector, with no additional
logic.  Used to compare `big_o` (without raw data) against pure
composition. -/
def estimateSpec {D : Type} (execTime : ℕ → D → ℕ → ℕ → ℚ)
    (data_generator : ℤ → D) (min_n max_n n_measures : ℤ)
    (n_repeats n_timings : ℕ) (classes : List ComplexityClass) :
    Except String (Option FittedInst × List (FitKey × FitVal)) :=
  match measure_execution_time execTime data_generator
          min_n max_n n_measures n_repeats n_timings with
  | .error e => .error e
  | .ok m => .ok (infer_big_o_class m.1 m.2 classes)

/-- A trivial timing oracle (every execution takes no time), used to
instantiate the harness on concrete inputs. -/
def zeroOracle : ℕ → ℤ → ℕ → ℕ → ℚ := fun _ _ _ _ => 0

/-- A timing oracle whose round `j` costs `j + 1` per execution, used to
exercise the minimum-of-rounds aggregation on concrete inputs. -/
def roundOracle : ℕ → ℤ → ℕ → ℕ → ℚ := fun _ _ j _ => (j : ℚ) + 1

/-- Concrete candidate whose fit yields coefficients `[3]` and residual `5`. -/
def candA : ComplexityClass := ⟨fun _ _ => ([3], 5)⟩

/-- Concrete candidate whose fit yields coefficients `[7]` and residual `5`. -/
def candB : ComplexityClass := ⟨fun _ _ => ([7], 5)⟩

/-- Concrete candidate whose fit yields coefficients `[9]` and residual `1`. -/
def candC : ComplexityClass := ⟨fun _ _ => ([9], 1)⟩

/-! ### Helper lemmas -/

theorem foldl_min_le_init (xs : List ℚ) (x : ℚ) : xs.foldl min x ≤ x := by
  induction xs generalizing x with
  | nil => exact le_refl x
  | cons a as ih => exact le_trans (ih (min x a)) (min_le_left x a)

theorem foldl_min_le_mem {xs : List ℚ} {y : ℚ} (h : y ∈ xs) (x : ℚ) :
    xs.foldl min x ≤ y := by
  induction xs generalizing x with
  | nil => cases h
  | cons a as ih =>
    rcases List.mem_cons.mp h with rfl | h'
    · exact le_trans (foldl_min_le_init as (min x y)) (min_le_right x y)
    · exact ih h' (min x a)

theorem foldl_min_mem (xs : List ℚ) (x : ℚ) :
    xs.foldl min x = x ∨ xs.foldl min x ∈ xs := by
  induction xs generalizing x with
  | nil => exact Or.inl rfl
  | cons a as ih =>
    rcases ih (min x a) with h | h
    · rcases min_choice x a with hx | ha
      · exact Or.inl (by rw [List.foldl_cons, h, hx])
      · exact Or.inr (by rw [List.foldl_cons, h, ha]; exact List.mem_cons_self a as)
    · exact Or.inr (List.mem_cons_of_mem a h)

theorem npMin_eq_ok (l : List ℚ) (h : l ≠ []) : npMin l = .ok (listMin1 l) := by
  cases l with
  | nil => exact absurd rfl h
  | cons x xs => rfl

theorem npMin_spec {l : List ℚ} {t : ℚ} (h : npMin l = .ok t) :
    t ∈ l ∧ ∀ y ∈ l, t ≤ y := by
  cases l with
  | nil => exact absurd h (by simp [npMin])
  | cons x xs =>
    have ht : t = xs.foldl min x := by
      simpa [npMin] using h.symm
    subst ht
    refine ⟨?_, ?_⟩
    · rcases foldl_min_mem xs x with h' | h'
      · rw [h']; exact List.mem_cons_self x xs
      · exact List.mem_cons_of_mem x h'
    · intro y hy
      rcases List.mem_cons.mp hy with rfl | hy'
      · exact foldl_min_le_init xs y
      · exact foldl_min_le_mem hy' x

theorem mapM_ok {α β : Type} {l : List α} {f : α → Except String β} {g : α → β}
    (h : ∀ a ∈ l, f a = .ok (g a)) : l.mapM f = .ok (l.map g) := by
  induction l with
  | nil => rfl
  | cons a as ih =>
    rw [List.mapM_cons, h a (List.mem_cons_self a as),
      ih (fun x hx => h x (List.mem_cons_of_mem a hx))]
    rfl

theorem mapM_ok_inv {α β : Type} {l : List α} {f : α → Except String β}
    {ts : List β} (h : l.mapM f = .ok ts) :
    ts.length = l.length ∧
      ∀ i a, l.get? i = some a → ∃ t, ts.get? i = some t ∧ f a = .ok t := by
  induction l generalizing ts with
  | nil =>
    have : ts = [] := by
      have h' : (pure [] : Except String (List β)) = .ok ts := by
        rw [← h]; rfl
      cases h'; rfl
    subst this
    exact ⟨rfl, fun i a ha => by cases i <;> cases ha⟩
  | cons a as ih =>
    rw [List.mapM_cons] at h
    cases hfa : f a with
    | error e => rw [hfa] at h; cases h
    | ok t =>
      rw [hfa] at h
      cases hrest : as.mapM f with
      | error e =>
        rw [hrest] at h
        cases h
      | ok us =>
        rw [hrest] at h
        have hts : ts = t :: us := by
          have h' : (pure (t :: us) : Except String (List β)) = .ok ts := by
            rw [← h]; rfl
          cases h'; rfl
        subst hts
        obtain ⟨hlen, hget⟩ := ih hrest
        refine ⟨by simp [hlen], ?_⟩
        intro i x hx
        cases i with
        | zero =>
          cases hx
          exact ⟨t, rfl, hfa⟩
        | succ n =>
          obtain ⟨u, hu, hfu⟩ := hget n x hx
          exact ⟨u, hu, hfu⟩

theorem truncInt_intCast (n : ℤ) : truncInt (n : ℚ) = n := by
  unfold truncInt
  split
  · exact Int.floor_intCast n
  · exact Int.ceil_intCast n

theorem truncInt_mono {q r : ℚ} (h : q ≤ r) : truncInt q ≤ truncInt r := by
  unfold truncInt
  split
  · split
    · exact Int.floor_le_floor h
    · exact absurd (le_trans (by assumption) h) (by assumption)
  · split
    · calc ⌈q⌉ ≤ (0 : ℤ) := Int.ceil_le.mpr
            (by exact_mod_cast le_of_lt (lt_of_not_le (by assumption)))
        _ ≤ ⌊r⌋ := Int.floor_nonneg.mpr (by assumption)
    · exact Int.ceil_le_ceil h

theorem linspace_eq_ok (start stop : ℚ) (num : ℤ) (h : 0 ≤ num) :
    linspace start stop num = .ok (linspaceList start stop num) := by
  unfold linspace
  rw [if_neg (not_lt.mpr h)]

theorem linspaceList_length (start stop : ℚ) (num : ℤ) :
    (linspaceList start stop num).length = num.toNat := by
  unfold linspaceList
  split
  · simp [*]
  · simp

theorem linspaceList_head (start stop : ℚ) (num : ℤ) (h : 1 ≤ num) :
    (linspaceList start stop num).head? = some start := by
  unfold linspaceList
  split
  · rfl
  · have h2 : (2 : ℤ) ≤ num := by omega
    obtain ⟨m, hm⟩ : ∃ m, num.toNat = m + 1 := ⟨num.toNat - 1, by omega⟩
    rw [hm, List.range_succ_eq_map, List.map_cons, List.head?_cons]
    rw [if_neg (by push_cast; omega : ¬ ((0 : ℕ) : ℤ) = num - 1)]
    norm_num

theorem linspaceList_getLast (start stop : ℚ) (num : ℤ) (h : 2 ≤ num) :
    (linspaceList start stop num).getLast? = some stop := by
  unfold linspaceList
  rw [if_neg (by omega)]
  rw [List.getLast?_map]
  have hn : num.toNat = (num.toNat - 1) + 1 := by omega
  have hlast : (List.range num.toNat).getLast? = some (num.toNat - 1) := by
    rw [List.getLast?_eq_getElem?, List.length_range,
      List.getElem?_range (by omega)]
  rw [hlast]
  have hc : ((num.toNat - 1 : ℕ) : ℤ) = num - 1 := by omega
  simp [hc]

theorem linspaceList_chain (start stop : ℚ) (num : ℤ) (hss : start ≤ stop) :
    List.Chain' (· ≤ ·) (linspaceList start stop num) := by
  unfold linspaceList
  split
  · exact List.chain'_singleton start
  · rw [List.chain'_map]
    cases hn : num.toNat with
    | zero => simp
    | succ k =>
      rw [List.chain'_range_succ]
      intro m hm
      have hk2 : (2 : ℤ) ≤ num := by
        rename_i hne
        omega
      have hK : (0 : ℚ) < (num : ℚ) - 1 := by
        have : (1 : ℚ) < (num : ℚ) := by exact_mod_cast (by omega : (1:ℤ) < num)
        linarith
      have hd : (0 : ℚ) ≤ stop - start := by linarith
      have hmz : (m : ℤ) ≤ num - 2 := by omega
      have hm1 : (m : ℚ) ≤ (num : ℚ) - 1 := by
        have := (by exact_mod_cast hmz : (m : ℚ) ≤ ((num : ℚ) - 2))
        linarith
      have hmne : ¬ ((m : ℕ) : ℤ) = num - 1 := by omega
      rw [if_neg hmne]
      have hstep : (m : ℚ) * (stop - start) / ((num : ℚ) - 1) ≤ stop - start := by
        rw [div_le_iff₀ hK]
        calc (m : ℚ) * (stop - start) ≤ ((num : ℚ) - 1) * (stop - start) :=
              mul_le_mul_of_nonneg_right hm1 hd
          _ = (stop - start) * ((num : ℚ) - 1) := by ring
      split
      · linarith
      · apply add_le_add_left
        rw [div_le_div_iff₀ hK hK]
        have hms : (m : ℚ) ≤ ((m + 1 : ℕ) : ℚ) := by
          exact_mod_cast Nat.le_succ m
        calc (m : ℚ) * (stop - start) * ((num : ℚ) - 1)
            ≤ ((m + 1 : ℕ) : ℚ) * (stop - start) * ((num : ℚ) - 1) := by
              apply mul_le_mul_of_nonneg_right _ (le_of_lt hK)
              exact mul_le_mul_of_nonneg_right hms hd
          _ = ((m + 1 : ℕ) : ℚ) * (stop - start) * ((num : ℚ) - 1) := rfl

theorem roundTotals_ne_nil {D : Type} (execTime : ℕ → D → ℕ → ℕ → ℚ)
    (i : ℕ) (d : D) (n_repeats n_timings : ℕ) (h : 1 ≤ n_timings) :
    roundTotals execTime i d n_repeats n_timings ≠ [] := by
  unfold roundTotals
  cases n_timings with
  | zero => omega
  | succ k => simp [List.range_succ_eq_map]

theorem measure_eq_ok {D : Type} (execTime : ℕ → D → ℕ → ℕ → ℚ)
    (data_generator : ℤ → D) (min_n max_n n_measures : ℤ)
    (n_repeats n_timings : ℕ) (h0 : 0 ≤ n_measures) (ht : 1 ≤ n_timings) :
    measure_execution_time execTime data_generator min_n max_n n_measures
        n_repeats n_timings =
      .ok (((linspaceList (min_n : ℚ) (max_n : ℚ) n_measures).map truncInt),
        ((linspaceList (min_n : ℚ) (max_n : ℚ) n_measures).map truncInt).enum.map
          (fun p => listMin1
            (roundTotals execTime p.1 (data_generator p.2) n_repeats n_timings))) := by
  unfold measure_execution_time
  rw [linspace_eq_ok _ _ _ h0]
  have hm : (((linspaceList (min_n : ℚ) (max_n : ℚ) n_measures).map
        truncInt).enum).mapM
      (fun p => npMin (roundTotals execTime p.1 (data_generator p.2)
        n_repeats n_timings)) =
      .ok ((((linspaceList (min_n : ℚ) (max_n : ℚ) n_measures).map
        truncInt).enum).map
        (fun p => listMin1 (roundTotals execTime p.1 (data_generator p.2)
          n_repeats n_timings))) :=
    mapM_ok (fun p _ => npMin_eq_ok _ (roundTotals_ne_nil _ _ _ _ _ ht))
  simp only [bind, Except.bind, hm]
  rfl

/-- Every key the selector loop stores is a model instance whose loop index
is below the next index `i`. -/
theorem inferAux_keys (ns : List ℤ) (time : List ℚ) :
    ∀ (l : List ComplexityClass) (i : ℕ) (best : Option (FittedInst × ℚ))
      (fitted : List (FitKey × FitVal)),
      (∀ p ∈ fitted, ∃ inst, p.1 = FitKey.inst inst ∧ inst.idx < i) →
      ∀ p ∈ (inferAux ns time i best fitted l).2,
        ∃ inst, p.1 = FitKey.inst inst ∧ inst.idx < i + l.length := by
  intro l
  induction l with
  | nil =>
    intro i best fitted hk p hp
    obtain ⟨inst, h1, h2⟩ := hk p hp
    exact ⟨inst, h1, by simpa using h2⟩
  | cons c rest ih =>
    intro i best fitted hk p hp
    simp only [inferAux] at hp
    have hres := ih (i + 1) _ _ ?_ p hp
    · obtain ⟨inst, h1, h2⟩ := hres
      exact ⟨inst, h1, by simp at h2 ⊢; omega⟩
    · intro q hq
      unfold dictInsert at hq
      split at hq
      · rw [List.mem_map] at hq
        obtain ⟨q', hq', hqe⟩ := hq
        by_cases hqc : q'.1 = FitKey.inst ⟨i, (c.fitFull ns time).1⟩
        · rw [if_pos hqc] at hqe
          exact ⟨⟨i, (c.fitFull ns time).1⟩, by rw [← hqe], Nat.lt_succ_self i⟩
        · rw [if_neg hqc] at hqe
          obtain ⟨inst, h1, h2⟩ := hk q' hq'
          exact ⟨inst, by rw [← hqe]; exact h1, by omega⟩
      · rcases List.mem_append.mp hq with hq' | hq'
        · obtain ⟨inst, h1, h2⟩ := hk q hq'
          exact ⟨inst, h1, by omega⟩
        · rcases List.mem_singleton.mp hq' with rfl
          exact ⟨⟨i, (c.fitFull ns time).1⟩, rfl, Nat.lt_succ_self i⟩

theorem dictInsert_append (d : List (FitKey × FitVal)) (k : FitKey) (v : FitVal)
    (h : ∀ p ∈ d, p.1 ≠ k) : dictInsert d k v = d ++ [(k, v)] := by
  have hany : (d.any (fun p => p.1 = k)) = false := by
    rw [List.any_eq_false]
    intro p hp
    simpa using h p hp
  unfold dictInsert
  rw [hany]
  rfl

/-- The selector loop extends the dictionary by exactly one fresh entry per
remaining candidate, in order. -/
theorem inferAux_fitted (ns : List ℤ) (time : List ℚ) :
    ∀ (l : List ComplexityClass) (i : ℕ) (best : Option (FittedInst × ℚ))
      (fitted : List (FitKey × FitVal)),
      (∀ p ∈ fitted, ∃ inst, p.1 = FitKey.inst inst ∧ inst.idx < i) →
      (inferAux ns time i best fitted l).2 = fitted ++ fitEntries ns time i l := by
  intro l
  induction l with
  | nil =>
    intro i best fitted _
    simp [inferAux, fitEntries]
  | cons c rest ih =>
    intro i best fitted hk
    simp only [inferAux]
    have hfresh : ∀ p ∈ fitted, p.1 ≠ FitKey.inst ⟨i, (c.fitFull ns time).1⟩ := by
      intro p hp
      obtain ⟨inst, h1, h2⟩ := hk p hp
      rw [h1]
      intro hcon
      cases hcon
      exact Nat.lt_irrefl i h2
    rw [show dictInsert fitted (FitKey.inst ⟨i, (c.fitFull ns time).1⟩)
          (FitVal.residual (c.fitFull ns time).2) =
        fitted ++ [(FitKey.inst ⟨i, (c.fitFull ns time).1⟩,
          FitVal.residual (c.fitFull ns time).2)] from
      dictInsert_append _ _ _ hfresh]
    rw [ih (i + 1) _ _ ?_]
    · rw [fitEntries, List.append_assoc]
      rfl
    · intro p hp
      rcases List.mem_append.mp hp with hp' | hp'
      · obtain ⟨inst, h1, h2⟩ := hk p hp'
        exact ⟨inst, h1, by omega⟩
      · rcases List.mem_singleton.mp hp' with rfl
        exact ⟨⟨i, (c.fitFull ns time).1⟩, rfl, Nat.lt_succ_self i⟩

theorem fitEntries_length (ns : List ℤ) (time : List ℚ) :
    ∀ (l : List ComplexityClass) (i : ℕ), (fitEntries ns time i l).length = l.length := by
  intro l
  induction l with
  | nil => intro i; rfl
  | cons c rest ih => intro i; rw [fitEntries]; simp [ih]

theorem fitEntries_get (ns : List ℤ) (time : List ℚ) :
    ∀ (l : List ComplexityClass) (i j : ℕ),
      (fitEntries ns time i l).get? j = (l.get? j).map (fun c =>
        (FitKey.inst ⟨i + j, (c.fitFull ns time).1⟩,
          FitVal.residual (c.fitFull ns time).2)) := by
  intro l
  induction l with
  | nil => intro i j; cases j <;> rfl
  | cons c rest ih =>
    intro i j
    cases j with
    | zero => rfl
    | succ m =>
      rw [fitEntries]
      show (fitEntries ns time (i + 1) rest).get? m = _
      rw [ih (i + 1) m]
      have : i + 1 + m = i + (m + 1) := by omega
      rw [this]
      rfl

theorem epsBias_nonneg : (0 : ℚ) ≤ epsBias := by norm_num [epsBias]

/-- Every key of the selector's result dictionary is a model instance. -/
theorem infer_keys (ns : List ℤ) (time : List ℚ) (classes : List ComplexityClass) :
    ∀ p ∈ (infer_big_o_class ns time classes).2, ∃ inst, p.1 = FitKey.inst inst := by
  intro p hp
  have hp' : p ∈ (inferAux ns time 0 none [] classes).2 := hp
  obtain ⟨inst, h1, _⟩ :=
    inferAux_keys ns time classes 0 none [] (by intro q hq; cases hq) p hp'
  exact ⟨inst, h1⟩

/-- If no remaining candidate beats the current best by more than the epsilon,
the current best survives the rest of the loop. -/
theorem inferAux_keep (ns : List ℤ) (time : List ℚ) :
    ∀ (l : List ComplexityClass) (i : ℕ) (b : FittedInst) (br : ℚ)
      (fitted : List (FitKey × FitVal)),
      (∀ c ∈ l, br - epsBias ≤ (c.fitFull ns time).2) →
      (inferAux ns time i (some (b, br)) fitted l).1 = some (b, br) := by
  intro l
  induction l with
  | nil => intro i b br fitted _; rfl
  | cons c rest ih =>
    intro i b br fitted h
    simp only [inferAux]
    rw [if_neg (not_lt.mpr (h c (List.mem_cons_self c rest)))]
    exact ih (i + 1) b br _ (fun c' hc' => h c' (List.mem_cons_of_mem c hc'))

/-- Invariant of the selector loop: starting from a best whose residual is
recorded in the dictionary and is within the epsilon of every recorded
residual, the loop ends with a best with the same properties. -/
theorem inferAux_best (ns : List ℤ) (time : List ℚ) :
    ∀ (l : List ComplexityClass) (i : ℕ) (b : FittedInst) (br : ℚ)
      (fitted : List (FitKey × FitVal)),
      (FitKey.inst b, FitVal.residual br) ∈ fitted →
      (∀ p ∈ fitted, ∀ r', p.2 = FitVal.residual r' → br ≤ r' + epsBias) →
      (∀ p ∈ fitted, ∃ inst, p.1 = FitKey.inst inst ∧ inst.idx < i) →
      ∃ b' br',
        (inferAux ns time i (some (b, br)) fitted l).1 = some (b', br') ∧
        (FitKey.inst b', FitVal.residual br') ∈
          (inferAux ns time i (some (b, br)) fitted l).2 ∧
        ∀ p ∈ (inferAux ns time i (some (b, br)) fitted l).2, ∀ r',
          p.2 = FitVal.residual r' → br' ≤ r' + epsBias := by
  intro l
  induction l with
  | nil =>
    intro i b br fitted hmem hbound _
    exact ⟨b, br, rfl, hmem, hbound⟩
  | cons c rest ih =>
    intro i b br fitted hmem hbound hkeys
    simp only [inferAux]
    have hfresh : ∀ p ∈ fitted, p.1 ≠ FitKey.inst ⟨i, (c.fitFull ns time).1⟩ := by
      intro p hp
      obtain ⟨inst, h1, h2⟩ := hkeys p hp
      rw [h1]
      intro hcon
      cases hcon
      exact Nat.lt_irrefl i h2
    rw [dictInsert_append _ _ _ hfresh]
    have hkeys' : ∀ p ∈ fitted ++ [(FitKey.inst ⟨i, (c.fitFull ns time).1⟩,
        FitVal.residual (c.fitFull ns time).2)],
        ∃ inst, p.1 = FitKey.inst inst ∧ inst.idx < i + 1 := by
      intro p hp
      rcases List.mem_append.mp hp with hp' | hp'
      · obtain ⟨inst, h1, h2⟩ := hkeys p hp'
        exact ⟨inst, h1, by omega⟩
      · rcases List.mem_singleton.mp hp' with rfl
        exact ⟨⟨i, (c.fitFull ns time).1⟩, rfl, Nat.lt_succ_self i⟩
    by_cases hlt : (c.fitFull ns time).2 < br - epsBias
    · rw [if_pos hlt]
      apply ih (i + 1) _ _ _ _ _ hkeys'
      · exact List.mem_append.mpr (Or.inr (List.mem_singleton.mpr rfl))
      · intro p hp r' hpr
        rcases List.mem_append.mp hp with hp' | hp'
        · have := hbound p hp' r' hpr
          linarith [epsBias_nonneg]
        · rcases List.mem_singleton.mp hp' with rfl
          have : (c.fitFull ns time).2 = r' := by
            have h' : FitVal.residual (c.fitFull ns time).2 = FitVal.residual r' := hpr
            cases h'
            rfl
          rw [← this]
          linarith [epsBias_nonneg]
    · rw [if_neg hlt]
      apply ih (i + 1) _ _ _ _ _ hkeys'
      · exact List.mem_append.mpr (Or.inl hmem)
      · intro p hp r' hpr
        rcases List.mem_append.mp hp with hp' | hp'
        · exact hbound p hp' r' hpr
        · rcases List.mem_singleton.mp hp' with rfl
          have : (c.fitFull ns time).2 = r' := by
            have h' : FitVal.residual (c.fitFull ns time).2 = FitVal.residual r' := hpr
            cases h'
            rfl
          rw [← this]
          linarith [not_lt.mp hlt]

/-! ### Claim theorems -/

/-- C1 (counterexample): on an empty candidate list `infer_big_o_class` does
not fail: at the concrete observation set ([100], [1]) it silently returns
`None` as the best model (with an empty residual map), refuting the claim
that an empty candidate list fails with a configuration error. -/
theorem C1_counterexample : infer_big_o_class [100] [1] [] = (none, []) := rfl

/-- C1 (amended): for every observation set, calling the model selector with
an empty candidate model list raises no error; it returns `None` as the best
model together with an empty residual map. -/
theorem C1_empty_returns_none (ns : List ℤ) (time : List ℚ) :
    infer_big_o_class ns time [] = (none, []) := rfl

/-- C4 (confirmed): a candidate replaces the running best only when its
residual undercuts the best's by more than `1e-6`; hence whenever no later
candidate's residual is smaller than the first candidate's residual by more
than `1e-6` — in particular whenever all residuals are within `1e-6` of each
other — the earliest candidate is retained as best. -/
theorem C4_tie_break_earlier_retained (ns : List ℤ) (time : List ℚ)
    (c : ComplexityClass) (rest : List ComplexityClass)
    (h : ∀ c' ∈ rest, (c.fitFull ns time).2 - epsBias ≤ (c'.fitFull ns time).2) :
    (infer_big_o_class ns time (c :: rest)).1 =
      some ⟨0, (c.fitFull ns time).1⟩ := by
  show ((inferAux ns time 0 none [] (c :: rest)).1.map Prod.fst) = _
  simp only [inferAux]
  rw [inferAux_keep ns time rest _ _ _ _ h]
  rfl

/-- C7 (confirmed): the residual map returned by `infer_big_o_class` has
exactly one entry per candidate tried, in candidate order, keyed by the
freshly constructed instance of that candidate (loop index plus fitted
coefficients) and holding that candidate's residual; losing models are
included, and on return the map is fully populated. -/
theorem C7_residual_map_complete (ns : List ℤ) (time : List ℚ)
    (classes : List ComplexityClass) :
    ((infer_big_o_class ns time classes).2).length = classes.length ∧
    ∀ i, ((infer_big_o_class ns time classes).2).get? i =
      (classes.get? i).map (fun c =>
        (FitKey.inst ⟨i, (c.fitFull ns time).1⟩,
          FitVal.residual (c.fitFull ns time).2)) := by
  have h2 : (infer_big_o_class ns time classes).2 = fitEntries ns time 0 classes := by
    have := inferAux_fitted ns time classes 0 none [] (by intro p hp; cases hp)
    simpa using this
  rw [h2]
  refine ⟨fitEntries_length ns time classes 0, ?_⟩
  intro i
  simpa using fitEntries_get ns time classes 0 i

/-- C8 (confirmed): with raw-data inclusion off, the orchestrator `big_o` is
pure composition — it returns exactly what the Timing Harness followed by the
Model Selector produce, with no additional logic (`estimateSpec` is the
composition written out as the spec words it). -/
theorem C8_orchestrator_is_composition {D : Type} (execTime : ℕ → D → ℕ → ℕ → ℚ)
    (data_generator : ℤ → D) (min_n max_n n_measures : ℤ)
    (n_repeats n_timings : ℕ) (classes : List ComplexityClass) :
    big_o execTime data_generator min_n max_n n_measures n_repeats n_timings
        classes false =
      estimateSpec execTime data_generator min_n max_n n_measures n_repeats
        n_timings classes := by
  unfold big_o estimateSpec
  cases h : measure_execution_time execTime data_generator min_n max_n
      n_measures n_repeats n_timings with
  | error e => simp only [h, bind, Except.bind]
  | ok m => simp only [h, bind, Except.bind, Bool.false_eq_true, if_false]; rfl

/-- C9 (confirmed): the model selector is deterministic — two invocations on
equal observation sets and equal candidate lists return the same best-model
identity (same instance, same fitted state) and residual maps with identical
values; there is no hidden random state in the embedding. -/
theorem C9_selection_deterministic (ns₁ ns₂ : List ℤ) (time₁ time₂ : List ℚ)
    (classes₁ classes₂ : List ComplexityClass)
    (h₁ : ns₁ = ns₂) (h₂ : time₁ = time₂) (h₃ : classes₁ = classes₂) :
    infer_big_o_class ns₁ time₁ classes₁ = infer_big_o_class ns₂ time₂ classes₂ := by
  rw [h₁, h₂, h₃]

/-- C2 (amended): with `min_n ≤ max_n`, at least one measurement point and at
least one timing round, the harness returns exactly `n_measures` (size, time)
pairs; the sizes are the int64 truncations of evenly spaced rationals, they
are non-decreasing (duplicates arise from truncation, so not necessarily
strictly increasing), the first size is `min_n`, and when `n_measures ≥ 2`
the last size is `max_n`. -/
theorem C2_sampling_plan {D : Type} (execTime : ℕ → D → ℕ → ℕ → ℚ)
    (data_generator : ℤ → D) (min_n max_n n_measures : ℤ)
    (n_repeats n_timings : ℕ)
    (h1 : min_n ≤ max_n) (h2 : 1 ≤ n_measures) (ht : 1 ≤ n_timings) :
    ∃ ns times,
      measure_execution_time execTime data_generator min_n max_n n_measures
        n_repeats n_timings = .ok (ns, times) ∧
      ns.length = n_measures.toNat ∧ times.length = n_measures.toNat ∧
      ns.head? = some min_n ∧ List.Chain' (· ≤ ·) ns ∧
      (2 ≤ n_measures → ns.getLast? = some max_n) := by
  refine ⟨_, _, measure_eq_ok execTime data_generator min_n max_n n_measures
    n_repeats n_timings (by omega) ht, ?_, ?_, ?_, ?_, ?_⟩
  · rw [List.length_map, linspaceList_length]
  · rw [List.length_map, List.enum_length, List.length_map, linspaceList_length]
  · rw [List.head?_map, linspaceList_head _ _ _ h2]
    simp [truncInt_intCast]
  · exact ((List.chain'_map truncInt).mpr
      ((linspaceList_chain _ _ n_measures (by exact_mod_cast h1)).imp
        (fun a b hab => truncInt_mono hab)))
  · intro hge2
    rw [List.getLast?_map, linspaceList_getLast _ _ _ hge2]
    simp [truncInt_intCast]

/-- C3 (amended): only a negative point count is rejected — a sampling plan
with `n_measures < 0` makes the pipeline fail (with numpy's `ValueError`)
before any measurement begins; `n_measures = 0` and `max_n < min_n` are not
validated (see the counterexample). -/
theorem C3_negative_count_fails {D : Type} (execTime : ℕ → D → ℕ → ℕ → ℚ)
    (data_generator : ℤ → D) (min_n max_n n_measures : ℤ)
    (n_repeats n_timings : ℕ) (classes : List ComplexityClass)
    (return_raw_data : Bool) (h : n_measures < 0) :
    big_o execTime data_generator min_n max_n n_measures n_repeats n_timings
        classes return_raw_data =
      .error "ValueError: Number of samples must be non-negative" := by
  unfold big_o measure_execution_time linspace
  rw [if_pos h]
  rfl

/-- C5 (confirmed): for each sampled size, the harness records as observed
time the minimum, over the `n_timings` timing rounds, of the total duration
of `n_repeats` consecutive executions of the callable on the single fixed
input generated for that size (`data_generator` applied to the size, once). -/
theorem C5_min_of_rounds {D : Type} (execTime : ℕ → D → ℕ → ℕ → ℚ)
    (data_generator : ℤ → D) (min_n max_n n_measures : ℤ)
    (n_repeats n_timings : ℕ) (ns : List ℤ) (times : List ℚ)
    (hok : measure_execution_time execTime data_generator min_n max_n
      n_measures n_repeats n_timings = .ok (ns, times)) :
    ∀ i n t, ns.get? i = some n → times.get? i = some t →
      (∃ j, j < n_timings ∧
        t = roundTotal execTime i (data_generator n) n_repeats j) ∧
      ∀ j, j < n_timings →
        t ≤ roundTotal execTime i (data_generator n) n_repeats j := by
  unfold measure_execution_time at hok
  cases hl : linspace (min_n : ℚ) (max_n : ℚ) n_measures with
  | error e => rw [hl] at hok; exact absurd hok (by simp [bind, Except.bind])
  | ok qs =>
    rw [hl] at hok
    simp only [bind, Except.bind] at hok
    cases hmm : (qs.map truncInt).enum.mapM (fun p =>
        npMin (roundTotals execTime p.1 (data_generator p.2)
          n_repeats n_timings)) with
    | error e => rw [hmm] at hok; cases hok
    | ok ts =>
      rw [hmm] at hok
      have hinj : (Except.ok (qs.map truncInt, ts) : Except String _) =
          Except.ok (ns, times) := hok
      cases hinj
      obtain ⟨_, hget⟩ := mapM_ok_inv hmm
      intro i n t hn htt
      have he : (qs.map truncInt).enum.get? i = some (i, n) := by
        rw [List.get?_enum, hn]
        rfl
      obtain ⟨t', ht', hf⟩ := hget i (i, n) he
      rw [htt] at ht'
      have ht'' : t' = t := by cases ht'; rfl
      rw [ht''] at hf
      obtain ⟨hmem, hle⟩ := npMin_spec hf
      constructor
      · have hmem' : t ∈ (List.range n_timings).map
            (roundTotal execTime i (data_generator n) n_repeats) := hmem
        obtain ⟨j, hjr, hje⟩ := List.mem_map.mp hmem'
        exact ⟨j, List.mem_range.mp hjr, hje.symm⟩
      · intro j hj
        have hmm2 : roundTotal execTime i (data_generator n) n_repeats j ∈
            roundTotals execTime (i, n).1 (data_generator (i, n).2)
              n_repeats n_timings :=
          List.mem_map.mpr ⟨j, List.mem_range.mpr hj, rfl⟩
        exact hle _ hmm2

/-- C6 (confirmed): with `return_raw_data` set, `big_o` returns the selector's
residual map extended by exactly the two string-keyed entries `'measures'`
(the measured sizes, verbatim) and `'times'` (the measured durations,
verbatim), appended after the per-model entries, which are left unchanged;
every other key of the map is a model instance, so the raw-data entries are
distinguishable by key kind. -/
theorem C6_raw_data_entries {D : Type} (execTime : ℕ → D → ℕ → ℕ → ℚ)
    (data_generator : ℤ → D) (min_n max_n n_measures : ℤ)
    (n_repeats n_timings : ℕ) (classes : List ComplexityClass)
    (ns : List ℤ) (time : List ℚ) (b : Option FittedInst)
    (fitted : List (FitKey × FitVal))
    (hm : measure_execution_time execTime data_generator min_n max_n
      n_measures n_repeats n_timings = .ok (ns, time))
    (hi : infer_big_o_class ns time classes = (b, fitted)) :
    big_o execTime data_generator min_n max_n n_measures n_repeats n_timings
        classes true =
      .ok (b, fitted ++ [(FitKey.str "measures", FitVal.sizes ns),
        (FitKey.str "times", FitVal.times time)]) ∧
    ∀ p ∈ fitted, ∃ inst, p.1 = FitKey.inst inst := by
  have hfit : (infer_big_o_class ns time classes).2 = fitted := by rw [hi]
  have hkeys : ∀ p ∈ fitted, ∃ inst, p.1 = FitKey.inst inst := by
    intro p hp
    exact infer_keys ns time classes p (by rw [hfit]; exact hp)
  refine ⟨?_, hkeys⟩
  unfold big_o
  simp only [hm, bind, Except.bind, hi]
  have h1 : dictInsert fitted (FitKey.str "measures") (FitVal.sizes ns) =
      fitted ++ [(FitKey.str "measures", FitVal.sizes ns)] := by
    apply dictInsert_append
    intro p hp
    obtain ⟨inst, he⟩ := hkeys p hp
    rw [he]
    intro hcon
    cases hcon
  have h2 : dictInsert (fitted ++ [(FitKey.str "measures", FitVal.sizes ns)])
      (FitKey.str "times") (FitVal.times time) =
      fitted ++ [(FitKey.str "measures", FitVal.sizes ns)] ++
        [(FitKey.str "times", FitVal.times time)] := by
    apply dictInsert_append
    intro p hp
    rcases List.mem_append.mp hp with hp' | hp'
    · obtain ⟨inst, he⟩ := hkeys p hp'
      rw [he]
      intro hcon
      cases hcon
    · rcases List.mem_singleton.mp hp' with rfl
      intro hcon
      have hsk : FitKey.str "measures" = FitKey.str "times" := hcon
      have hs : "measures" = "times" := by injection hsk
      exact absurd hs (by decide)
  rw [h1, h2, List.append_assoc]
  rfl

/-- C10 (confirmed): on any non-empty candidate list the selector returns a
non-`None` best model, the best model's residual is recorded in the returned
residual map, and that residual exceeds no recorded residual by more than
`1e-6` — the selected model is within the epsilon of optimal. -/
theorem C10_best_within_eps_of_optimal (ns : List ℤ) (time : List ℚ)
    (classes : List ComplexityClass) (h : classes ≠ []) :
    ∃ b r, (infer_big_o_class ns time classes).1 = some b ∧
      (FitKey.inst b, FitVal.residual r) ∈ (infer_big_o_class ns time classes).2 ∧
      ∀ p ∈ (infer_big_o_class ns time classes).2, ∀ r',
        p.2 = FitVal.residual r' → r ≤ r' + epsBias := by
  cases classes with
  | nil => exact absurd rfl h
  | cons c rest =>
    have hred : inferAux ns time 0 none [] (c :: rest) =
        inferAux ns time 1
          (some (⟨0, (c.fitFull ns time).1⟩, (c.fitFull ns time).2))
          [(FitKey.inst ⟨0, (c.fitFull ns time).1⟩,
            FitVal.residual (c.fitFull ns time).2)] rest := rfl
    obtain ⟨b', br', he, hmem, hb⟩ := inferAux_best ns time rest 1
      ⟨0, (c.fitFull ns time).1⟩ (c.fitFull ns time).2
      [(FitKey.inst ⟨0, (c.fitFull ns time).1⟩,
        FitVal.residual (c.fitFull ns time).2)]
      (List.mem_singleton.mpr rfl)
      (by
        intro p hp r' hpr
        rcases List.mem_singleton.mp hp with rfl
        have h' : FitVal.residual (c.fitFull ns time).2 = FitVal.residual r' := hpr
        cases h'
        linarith [epsBias_nonneg])
      (by
        intro p hp
        rcases List.mem_singleton.mp hp with rfl
        exact ⟨⟨0, (c.fitFull ns time).1⟩, rfl, Nat.lt_succ_self 0⟩)
    refine ⟨b', br', ?_, ?_, ?_⟩
    · show ((inferAux ns time 0 none [] (c :: rest)).1.map Prod.fst) = some b'
      rw [hred, he]
      rfl
    · show (FitKey.inst b', FitVal.residual br') ∈
        (inferAux ns time 0 none [] (c :: rest)).2
      rw [hred]
      exact hmem
    · intro p hp r' hpr
      have hp' : p ∈ (inferAux ns time 0 none [] (c :: rest)).2 := hp
      rw [hred] at hp'
      exact hb p hp' r' hpr

/-! ### Counterexamples and witnesses -/

/-- C2 (counterexample): at `min_n = 1`, `max_n = 2`, `n_measures = 3` the
sizes are `[1, 1, 2]` — int64 truncation duplicates the first size, so the
sizes are not strictly increasing; and at `n_measures = 1` the single size is
`min_n = 1`, so the last size is not `max_n = 2`. -/
theorem C2_counterexample :
    (measure_execution_time zeroOracle id 1 2 3 1 1 = .ok ([1, 1, 2], [0, 0, 0]) ∧
      ¬ List.Chain' (· < ·) ([1, 1, 2] : List ℤ)) ∧
    (measure_execution_time zeroOracle id 1 2 1 1 1 = .ok ([1], [0]) ∧
      ([1] : List ℤ).getLast? ≠ some 2) := by
  refine ⟨⟨?_, by simp [List.chain'_cons]⟩, ⟨?_, by decide⟩⟩
  · simp [measure_execution_time, linspace, linspaceList, npMin, truncInt,
      roundTotal, roundTotals, List.range_succ, zeroOracle, List.enum, bind,
      Except.bind, List.mapM, List.mapM.loop, pure, Except.pure, Function.comp,
      List.singleton]
    norm_num
  · simp [measure_execution_time, linspace, linspaceList, npMin, truncInt,
      roundTotal, roundTotals, List.range_succ, zeroOracle, List.enum, bind,
      Except.bind, List.mapM, List.mapM.loop, pure, Except.pure, Function.comp,
      List.singleton]

/-- C2 (witness): the amended statement at `min_n = 2`, `max_n = 10`,
`n_measures = 5`, one repeat and one timing round. -/
theorem C2_sampling_plan_witness :
    ∃ ns times,
      measure_execution_time zeroOracle id 2 10 5 1 1 = .ok (ns, times) ∧
      ns.length = (5 : ℤ).toNat ∧ times.length = (5 : ℤ).toNat ∧
      ns.head? = some 2 ∧ List.Chain' (· ≤ ·) ns ∧
      (2 ≤ (5 : ℤ) → ns.getLast? = some 10) :=
  C2_sampling_plan zeroOracle id 2 10 5 1 1 (by decide) (by decide) (by decide)

/-- C3 (counterexample): a plan with `max_n < min_n` (3 down to 1) is not
rejected — the harness happily measures at the non-increasing sizes
`[3, 2, 1]`; and a plan with `n_measures = 0` is not rejected either — the
harness silently returns an empty observation set. -/
theorem C3_counterexample :
    measure_execution_time zeroOracle id 3 1 3 1 1 = .ok ([3, 2, 1], [0, 0, 0]) ∧
    measure_execution_time zeroOracle id 1 2 0 1 1 = .ok ([], []) := by
  constructor
  · simp [measure_execution_time, linspace, linspaceList, npMin, truncInt,
      roundTotal, roundTotals, List.range_succ, zeroOracle, List.enum, bind,
      Except.bind, List.mapM, List.mapM.loop, pure, Except.pure, Function.comp,
      List.singleton]
    norm_num
  · simp [measure_execution_time, linspace, linspaceList, npMin, truncInt,
      roundTotal, roundTotals, List.range_succ, zeroOracle, List.enum, bind,
      Except.bind, List.mapM, List.mapM.loop, pure, Except.pure, Function.comp,
      List.singleton]

/-- C3 (witness): the amended statement at `n_measures = -1`. -/
theorem C3_negative_count_fails_witness :
    big_o zeroOracle id 1 2 (-1) 1 1 [] false =
      .error "ValueError: Number of samples must be non-negative" :=
  C3_negative_count_fails zeroOracle id 1 2 (-1) 1 1 [] false (by decide)

/-- C4 (witness): two candidates with equal residuals — the earlier one
(`candA`, residual 5) is retained over the later one (`candB`, residual 5). -/
theorem C4_tie_break_witness :
    (infer_big_o_class [1] [1] [candA, candB]).1 = some ⟨0, [3]⟩ := by
  have h := C4_tie_break_earlier_retained [1] [1] candA [candB] (by
    intro c' hc'
    rcases List.mem_singleton.mp hc' with rfl
    norm_num [candA, candB, epsBias])
  simpa [candA] using h

/-- C5 (witness): one size (2), one repeat, two timing rounds costing 1 and 2;
the recorded time is 1, the minimum round total. -/
theorem C5_min_of_rounds_witness :
    (∃ j, j < 2 ∧ (1 : ℚ) = roundTotal roundOracle 0 (2 : ℤ) 1 j) ∧
    ∀ j, j < 2 → (1 : ℚ) ≤ roundTotal roundOracle 0 (2 : ℤ) 1 j := by
  have h := C5_min_of_rounds roundOracle id 2 2 1 1 2 [2] [1] (by
    simp [measure_execution_time, linspace, linspaceList, npMin, truncInt,
      roundTotal, roundTotals, List.range_succ, roundOracle, List.enum, bind,
      Except.bind, List.mapM, List.mapM.loop, pure, Except.pure, Function.comp,
      List.singleton])
  exact h 0 2 1 rfl rfl

/-- C6 (witness): one candidate, three measured sizes; with raw data
requested the map is the single residual entry followed by the `'measures'`
and `'times'` entries. -/
theorem C6_raw_data_entries_witness :
    big_o zeroOracle id 1 2 3 1 1 [candA] true =
      .ok (some ⟨0, [3]⟩,
        [(FitKey.inst ⟨0, [3]⟩, FitVal.residual 5)] ++
          [(FitKey.str "measures", FitVal.sizes [1, 1, 2]),
           (FitKey.str "times", FitVal.times [0, 0, 0])]) ∧
    ∀ p ∈ [(FitKey.inst ⟨0, [3]⟩, FitVal.residual 5)],
      ∃ inst, p.1 = FitKey.inst inst :=
  C6_raw_data_entries zeroOracle id 1 2 3 1 1 [candA] [1, 1, 2] [0, 0, 0]
    (some ⟨0, [3]⟩) [(FitKey.inst ⟨0, [3]⟩, FitVal.residual 5)]
    (by
      simp [measure_execution_time, linspace, linspaceList, npMin, truncInt,
        roundTotal, roundTotals, List.range_succ, zeroOracle, List.enum, bind,
        Except.bind, List.mapM, List.mapM.loop, pure, Except.pure,
        Function.comp, List.singleton]
      norm_num)
    (by
      simp [infer_big_o_class, inferAux, dictInsert, candA, epsBias])

/-- C9 (witness): the determinism statement at a concrete observation set and
candidate list. -/
theorem C9_selection_deterministic_witness :
    infer_big_o_class [1] [1] [candA] = infer_big_o_class [1] [1] [candA] :=
  C9_selection_deterministic [1] [1] [1] [1] [candA] [candA] rfl rfl rfl

/-- C10 (witness): two candidates with residuals 5 and 1 — the selector picks
a best model within epsilon of the optimum. -/
theorem C10_best_within_eps_witness :
    ∃ b r, (infer_big_o_class [1] [1] [candA, candC]).1 = some b ∧
      (FitKey.inst b, FitVal.residual r) ∈
        (infer_big_o_class [1] [1] [candA, candC]).2 ∧
      ∀ p ∈ (infer_big_o_class [1] [1] [candA, candC]).2, ∀ r',
        p.2 = FitVal.residual r' → r ≤ r' + epsBias :=
  C10_best_within_eps_of_optimal [1] [1] [candA, candC] (by simp)

end BigO
